import Mathlib

/-!
Shallow embedding of the password-strength scoring engine
(`old_password_strength_script.py`).  Passwords are modelled as `List Char`;
Python's `float` entropy arithmetic is modelled over `ℝ`; Python's `int`
score arithmetic over `ℤ`.  The regex character classes `[a-z]`, `[A-Z]`,
`[0-9]`, `[^a-zA-Z0-9]` are ASCII ranges, embedded as explicit range tests.
-/

namespace PasswordStrength

/-- Result record produced by `score_password` (the `StrengthResult` dataclass). -/
structure StrengthResult where
  score : ℤ
  label : String
  entropy_bits : ℝ
  feedback : List String

/-- Regex class `[a-z]` applied to one character (codepoints 97–122). -/
def isLowerAZ (c : Char) : Bool := decide (97 ≤ c.toNat) && decide (c.toNat ≤ 122)

/-- Regex class `[A-Z]` applied to one character (codepoints 65–90). -/
def isUpperAZ (c : Char) : Bool := decide (65 ≤ c.toNat) && decide (c.toNat ≤ 90)

/-- Regex class `[0-9]` applied to one character (codepoints 48–57). -/
def isDigit09 (c : Char) : Bool := decide (48 ≤ c.toNat) && decide (c.toNat ≤ 57)

/-- Regex class `[a-zA-Z]` applied to one character. -/
def isLetterAZ (c : Char) : Bool := isLowerAZ c || isUpperAZ c

/-- Regex class `[^a-zA-Z0-9]` applied to one character (the "symbols" class). -/
def isSymbolOther (c : Char) : Bool := !(isLowerAZ c || isUpperAZ c || isDigit09 c)

/-- The `COMMON_PASSWORDS` set (only membership is ever used). -/
def COMMON_PASSWORDS : List (List Char) :=
  ["password".toList, "123456".toList, "123456789".toList, "qwerty".toList,
   "letmein".toList, "admin".toList, "password1".toList, "welcome".toList,
   "iloveyou".toList, "monkey".toList, "dragon".toList, "football".toList]

/-- The `KEYBOARD_PATTERNS` list. -/
def KEYBOARD_PATTERNS : List (List Char) :=
  ["qwerty".toList, "asdf".toList, "zxcv".toList, "poiuy".toList,
   "lkjh".toList, "mnbv".toList, "12345".toList, "67890".toList]

/-- The `SEQUENCES` list. -/
def SEQUENCES : List (List Char) :=
  ["abcdefghijklmnopqrstuvwxyz".toList,
   "ABCDEFGHIJKLMNOPQRSTUVWXYZ".toList,
   "0123456789".toList]

/-- `detect_charsets`: total alphabet size of the present classes, plus the
list of class names present (checks run in source order: lowercase,
uppercase, digits, symbols). -/
def detect_charsets (pw : List Char) : Nat × List String :=
  let low := pw.any isLowerAZ
  let up := pw.any isUpperAZ
  let dig := pw.any isDigit09
  let sym := pw.any isSymbolOther
  ((if low then 26 else 0) + (if up then 26 else 0) + (if dig then 10 else 0) +
     (if sym then 33 else 0),
   (if low then ["lowercase"] else []) ++ (if up then ["uppercase"] else []) ++
     (if dig then ["digits"] else []) ++ (if sym then ["symbols"] else []))

/-- Characters removed by Python's `str.strip()` (ASCII whitespace:
space, tab, newline, carriage return, vertical tab, form feed). -/
def isPySpace (c : Char) : Bool :=
  c == ' ' || c == '\t' || c == '\n' || c == '\r' || c == '\x0b' || c == '\x0c'

/-- `pw.strip()`: drop whitespace from both ends. -/
def pyStrip (l : List Char) : List Char :=
  ((l.dropWhile isPySpace).reverse.dropWhile isPySpace).reverse

/-- Python's `str.lower()` on one character (ASCII case mapping, which agrees
with Python on the ASCII inputs this engine compares against). -/
def toLowerC (c : Char) : Char := c.toLower

/-- Full match of the regex `^[a-zA-Z]+[0-9]{1,4}$`: one or more letters
followed by one to four digits and nothing else. -/
def matchesLettersThenDigits (raw : List Char) : Bool :=
  let letters := raw.takeWhile isLetterAZ
  let rest := raw.dropWhile isLetterAZ
  !letters.isEmpty && !rest.isEmpty && rest.all isDigit09 && decide (rest.length ≤ 4)

/-- `re.sub(r"[0-9]+$", "", raw)`: remove the maximal run of trailing digits. -/
def stripTrailingDigits (l : List Char) : List Char :=
  (l.reverse.dropWhile isDigit09).reverse

/-- The leetspeak translation table used by `looks_like_common_password`. -/
def leetChar (c : Char) : Char :=
  if c == '@' then 'a'
  else if c == '0' then 'o'
  else if c == '1' then 'i'
  else if c == '!' then 'i'
  else if c == '$' then 's'
  else if c == '3' then 'e'
  else c

/-- `looks_like_common_password`: exact match after strip+lower, or
letters-plus-1-to-4-trailing-digits with a common base, or a leetspeak
normalization hitting the common set. -/
def looks_like_common_password (pw : List Char) : Bool :=
  let raw := pyStrip pw
  let lower := raw.map toLowerC
  if COMMON_PASSWORDS.contains lower then true
  else if matchesLettersThenDigits raw &&
      COMMON_PASSWORDS.contains ((stripTrailingDigits raw).map toLowerC) then true
  else COMMON_PASSWORDS.contains (lower.map leetChar)

/-- Does the list start with a match of the regex `(.)\1{3,}`?  The group
`(.)` matches any character except `'\n'` (no DOTALL flag), and the
backreferences require the next three characters to equal the captured one. -/
def startsRun4 : List Char → Bool
  | c1 :: c2 :: c3 :: c4 :: _ => c1 != '\n' && c1 == c2 && c1 == c3 && c1 == c4
  | _ => false

/-- `has_repeated_runs` with the default `run_len = 4` (the only way
`score_password` calls it): the regex `(.)\1{3,}` matches somewhere. -/
def has_repeated_runs : List Char → Bool
  | [] => false
  | c :: t => startsRun4 (c :: t) || has_repeated_runs t

/-- Python's substring test `needle in haystack`. -/
def isSubstrOf (needle : List Char) : List Char → Bool
  | [] => needle.isEmpty
  | c :: t => needle.isPrefixOf (c :: t) || isSubstrOf needle t

/-- All windows `seq[i:i+4]` for `i` in `range(len(seq) - 4 + 1)`. -/
def chunks4 (seq : List Char) : List (List Char) :=
  (List.range (seq.length + 1 - 4)).map (fun i => (seq.drop i).take 4)

/-- `has_sequence` with the default `seq_len = 4`: some 4-character window of
a canonical sequence (lowercased), or of its reversal, occurs in the
lowercased password. -/
def has_sequence (pw : List Char) : Bool :=
  let lower := pw.map toLowerC
  SEQUENCES.any (fun seq =>
    let sl := seq.map toLowerC
    (chunks4 sl).any (fun chunk => isSubstrOf chunk lower) ||
      (chunks4 sl.reverse).any (fun chunk => isSubstrOf chunk lower))

/-- `has_keyboard_pattern` with the default `min_len = 4`. -/
def has_keyboard_pattern (pw : List Char) : Bool :=
  let lower := pw.map toLowerC
  KEYBOARD_PATTERNS.any (fun pat => decide (4 ≤ pat.length) && isSubstrOf pat lower)

/-- `shannon_entropy_bits`: per-character Shannon entropy of the password's
own character-frequency distribution, times the length.  The Python loop over
`freq.values()` is the sum over the distinct characters (`pw.dedup`) of
`-(p * log2 p)` with `p = count / length`. -/
noncomputable def shannon_entropy_bits (pw : List Char) : ℝ :=
  if pw = [] then 0
  else
    let length : ℝ := pw.length
    let entropy : ℝ :=
      (pw.dedup.map (fun c =>
        let p : ℝ := (pw.count c : ℝ) / length;
        -(p * Real.logb 2 p))).sum
    entropy * length

/-- `estimated_search_space_entropy_bits`: `len(pw) * log2(charset_size)`,
and `0.0` when no charset was detected. -/
noncomputable def estimated_search_space_entropy_bits (pw : List Char) : ℝ :=
  let charset_size := (detect_charsets pw).1
  if charset_size = 0 then 0
  else (pw.length : ℝ) * Real.logb 2 charset_size

/-- Python's `int()` applied to a float: truncation toward zero. -/
noncomputable def pyInt (x : ℝ) : ℤ := if 0 ≤ x then ⌊x⌋ else ⌈x⌉

/-- The conservative combined entropy `min(shannon_bits, space_bits)` used by
`score_password` on a non-empty password. -/
noncomputable def entropy_combined (pw : List Char) : ℝ :=
  min (shannon_entropy_bits pw) (estimated_search_space_entropy_bits pw)

/-- Length tier points of `score_password` (max 40). -/
def length_score (length : Nat) : ℤ :=
  if length < 8 then 5 else if length < 12 then 20 else if length < 16 then 32 else 40

/-- Feedback appended by the length tiers. -/
def length_fb (length : Nat) : List String :=
  if length < 8 then ["Too short: aim for at least 12-16 characters."]
  else if length < 12 then ["Decent length, but 12-16+ is better."]
  else []

/-- Charset variety points `min(20, len(used_sets) * 5)`. -/
def variety_score (pw : List Char) : ℤ :=
  min 20 (((detect_charsets pw).2.length : ℤ) * 5)

/-- Feedback appended for each absent charset class. -/
def variety_fb (pw : List Char) : List String :=
  let used_sets := (detect_charsets pw).2
  (if used_sets.contains "lowercase" then []
   else ["add lowercase letters to increase variety."]) ++
  (if used_sets.contains "uppercase" then []
   else ["Add uppercase letters to increase variety."]) ++
  (if used_sets.contains "digits" then []
   else ["Add digits to increase variety."]) ++
  (if used_sets.contains "symbols" then []
   else ["Add symbols(e.g., !@#$) to increase variety."])

/-- Entropy contribution `int(min(25, (entropy_bits / 80.0) * 25))`. -/
noncomputable def entropy_score (pw : List Char) : ℤ :=
  pyInt (min 25 (entropy_combined pw / 80.0 * 25))

/-- Sum of the three penalty contributions (common password 25, repeated
runs 8, keyboard pattern 6). -/
def penalties_total (pw : List Char) : ℤ :=
  (if looks_like_common_password pw then 25 else 0) +
  (if has_repeated_runs pw then 8 else 0) +
  (if has_keyboard_pattern pw then 6 else 0)

/-- Feedback appended by the penalty checks, in source order. -/
def penalty_fb (pw : List Char) : List String :=
  (if looks_like_common_password pw then
    ["This looks like a common password or easy variation-avoid it."] else []) ++
  (if has_repeated_runs pw then
    ["Avoid repeated characters (e.g., aaaa, 1111)."] else []) ++
  (if has_keyboard_pattern pw then
    ["Avoid keyboard patterns (e.g., qwerty, asdf)."] else [])

/-- Score before clamping: points earned minus penalties. -/
noncomputable def raw_score (pw : List Char) : ℤ :=
  length_score pw.length + variety_score pw + entropy_score pw - penalties_total pw

/-- `score = max(0, min(100, score))`. -/
noncomputable def final_score (pw : List Char) : ℤ :=
  max 0 (min 100 (raw_score pw))

/-- The label block of `score_password`.  In Python this is four successive
`if` statements that each reassign `label`, followed by an `else` on the
last one; since the final `if score < 80 ... else ...` always assigns, the
earlier assignments are dead and only the last one decides.  Each Lean `let`
below shadows the previous value exactly as the Python reassignments do. -/
def labelOf (score : ℤ) : String :=
  let l : Option String := none
  let l := if score < 20 then some "Very Weak" else l
  let l := if score < 40 then some "Weak" else l
  let l := if score < 60 then some "fair" else l
  let l := if score < 80 then some "Strong" else some "Very Strong"
  l.getD ""

/-- Feedback from the length, variety and penalty steps, in evaluation order. -/
def base_feedback (pw : List Char) : List String :=
  length_fb pw.length ++ variety_fb pw ++ penalty_fb pw

/-- The congratulatory suggestion appended when no feedback was generated and
the score is at least 80. -/
def congratsMsg : String :=
  "Great password. Consider using a password manager to generate/store unique passwords."

/-- `score_password`: the full scoring engine. -/
noncomputable def score_password (pw : List Char) : StrengthResult :=
  if pw = [] then
    { score := 0, label := "Very Weak", entropy_bits := 0, feedback := ["Password is empty"] }
  else
    { score := final_score pw
      label := labelOf (final_score pw)
      entropy_bits := entropy_combined pw
      feedback :=
        if base_feedback pw = [] ∧ 80 ≤ final_score pw then base_feedback pw ++ [congratsMsg]
        else base_feedback pw }

/-! ### Basic bounds on the numeric components -/

lemma shannon_entropy_bits_nonneg (pw : List Char) : 0 ≤ shannon_entropy_bits pw := by
  unfold shannon_entropy_bits
  split
  · exact le_refl 0
  · next h =>
    have hlen : (0 : ℝ) < pw.length := by
      exact_mod_cast List.length_pos.mpr h
    refine mul_nonneg (List.sum_nonneg ?_) hlen.le
    intro x hx
    simp only [List.mem_map] at hx
    obtain ⟨c, hc, rfl⟩ := hx
    have hp0 : (0 : ℝ) ≤ (pw.count c : ℝ) / (pw.length : ℝ) := by positivity
    have hp1 : (pw.count c : ℝ) / (pw.length : ℝ) ≤ 1 := by
      rw [div_le_one hlen]
      exact_mod_cast List.count_le_length ..
    have hlog : Real.logb 2 ((pw.count c : ℝ) / (pw.length : ℝ)) ≤ 0 :=
      Real.logb_nonpos (by norm_num) hp0 hp1
    simpa using mul_nonneg hp0 (neg_nonneg.mpr hlog)

lemma search_space_nonneg (pw : List Char) :
    0 ≤ estimated_search_space_entropy_bits pw := by
  simp only [estimated_search_space_entropy_bits]
  split
  · exact le_refl 0
  · next h =>
    have h1 : (1 : ℝ) ≤ ((detect_charsets pw).1 : ℝ) := by
      exact_mod_cast Nat.one_le_iff_ne_zero.mpr h
    exact mul_nonneg (by positivity) (Real.logb_nonneg (by norm_num) h1)

lemma entropy_combined_nonneg (pw : List Char) : 0 ≤ entropy_combined pw :=
  le_min (shannon_entropy_bits_nonneg pw) (search_space_nonneg pw)

lemma pyInt_mono {x y : ℝ} (h : x ≤ y) : pyInt x ≤ pyInt y := by
  unfold pyInt
  by_cases hx : 0 ≤ x <;> by_cases hy : 0 ≤ y
  · rw [if_pos hx, if_pos hy]; exact Int.floor_le_floor h
  · exact absurd (hx.trans h) hy
  · rw [if_neg hx, if_pos hy]
    have h1 : ⌈x⌉ ≤ 0 := Int.ceil_le.mpr (by exact_mod_cast le_of_not_le hx)
    exact h1.trans (Int.floor_nonneg.mpr hy)
  · rw [if_neg hx, if_neg hy]; exact Int.ceil_le_ceil h

lemma pyInt_intCast (n : ℤ) : pyInt (n : ℝ) = n := by
  unfold pyInt
  split_ifs <;> simp

lemma pyInt_le {x : ℝ} {n : ℤ} (h : x ≤ (n : ℝ)) : pyInt x ≤ n := by
  have := pyInt_mono h
  rwa [pyInt_intCast] at this

lemma pyInt_nonneg {x : ℝ} (h : 0 ≤ x) : 0 ≤ pyInt x := by
  unfold pyInt
  rw [if_pos h]
  exact Int.floor_nonneg.mpr h

lemma entropy_score_nonneg (pw : List Char) : 0 ≤ entropy_score pw := by
  unfold entropy_score
  refine pyInt_nonneg (le_min (by norm_num) ?_)
  have := entropy_combined_nonneg pw
  positivity

lemma entropy_score_le_25 (pw : List Char) : entropy_score pw ≤ 25 := by
  unfold entropy_score
  refine pyInt_le ?_
  calc min 25 (entropy_combined pw / 80.0 * 25) ≤ 25 := min_le_left _ _
    _ = ((25 : ℤ) : ℝ) := by norm_num

lemma length_score_bounds (n : Nat) : 5 ≤ length_score n ∧ length_score n ≤ 40 := by
  unfold length_score
  split_ifs <;> omega

lemma variety_score_bounds (pw : List Char) :
    0 ≤ variety_score pw ∧ variety_score pw ≤ 20 := by
  unfold variety_score
  constructor
  · exact le_min (by norm_num) (by positivity)
  · exact min_le_left _ _

lemma penalties_total_nonneg (pw : List Char) : 0 ≤ penalties_total pw := by
  unfold penalties_total
  split_ifs <;> omega

lemma final_score_nonneg (pw : List Char) : 0 ≤ final_score pw :=
  le_max_left 0 _

lemma final_score_le_100 (pw : List Char) : final_score pw ≤ 100 :=
  max_le (by norm_num) (min_le_left _ _)

lemma raw_score_le_85 (pw : List Char) : raw_score pw ≤ 85 := by
  unfold raw_score
  have h1 := (length_score_bounds pw.length).2
  have h2 := (variety_score_bounds pw).2
  have h3 := entropy_score_le_25 pw
  have h4 := penalties_total_nonneg pw
  omega

lemma final_score_le_85 (pw : List Char) : final_score pw ≤ 85 := by
  unfold final_score
  exact max_le (by norm_num) ((min_le_right _ _).trans (raw_score_le_85 pw))

/-! ### Claims -/

/-- C1: for every input string, `score_password` returns a result whose
integer score satisfies `0 ≤ score ≤ 100` and whose entropy estimate is
nonnegative. -/
theorem C1_score_and_entropy_invariants (pw : List Char) :
    0 ≤ (score_password pw).score ∧ (score_password pw).score ≤ 100 ∧
      0 ≤ (score_password pw).entropy_bits := by
  unfold score_password
  split
  · exact ⟨le_refl 0, by norm_num, le_refl 0⟩
  · exact ⟨final_score_nonneg pw, final_score_le_100 pw, entropy_combined_nonneg pw⟩

/-- C2: the empty password short-circuits to the fixed result
`score = 0`, `label = "Very Weak"`, `entropy_bits = 0`,
`feedback = ["Password is empty"]`, with no other feedback and no
penalties applied. -/
theorem C2_empty_password :
    score_password [] =
      { score := 0, label := "Very Weak", entropy_bits := 0,
        feedback := ["Password is empty"] } := by
  unfold score_password
  simp

/-- The four successive `if` statements of the label block collapse: the final
`if score < 80 ... else ...` always assigns, so it alone decides the label. -/
lemma labelOf_eq (s : ℤ) :
    labelOf s = if s < 80 then "Strong" else "Very Strong" := by
  simp only [labelOf]
  split_ifs <;> rfl

/-- C9: the score never exceeds 85 (40 length + 20 variety + 25 entropy,
penalties only subtract), so the clamp at 100 never binds, and the
"Very Strong" label is produced exactly when the clamped score is at
least 80 — hence every "Very Strong" result has score in [80, 85]. -/
theorem C9_score_at_most_85 (pw : List Char) :
    (score_password pw).score ≤ 85 ∧
      ((score_password pw).label = "Very Strong" ↔ 80 ≤ (score_password pw).score) := by
  unfold score_password
  split
  · refine ⟨by norm_num, iff_of_false (by decide) (by norm_num)⟩
  · refine ⟨final_score_le_85 pw, ?_⟩
    simp only [labelOf_eq]
    split_ifs with h
    · exact iff_of_false (by decide) (by omega)
    · exact iff_of_true rfl (by omega)

/-! ### Concrete evaluation of the entropy pipeline on simple inputs -/

lemma pyInt_zero : pyInt 0 = 0 := by
  simpa using pyInt_intCast 0

lemma shannon_singleton (c : Char) : shannon_entropy_bits [c] = 0 := by
  simp [shannon_entropy_bits, Real.logb_one]

lemma entropy_score_singleton_lower (c : Char)
    (h26 : (detect_charsets [c]).1 = 26) : entropy_score [c] = 0 := by
  have hsp : estimated_search_space_entropy_bits [c] = Real.logb 2 26 := by
    simp [estimated_search_space_entropy_bits, h26]
  have hco : entropy_combined [c] = 0 := by
    rw [entropy_combined, shannon_singleton, hsp]
    exact min_eq_left (Real.logb_nonneg (by norm_num) (by norm_num))
  rw [entropy_score, hco]
  norm_num [pyInt_zero]

/-- C3 evaluated on the failing input `"a"`: the code gives score 10 but
label `"Strong"`, where the claim's bins require `"Very Weak"` for every
score in [0, 20).  (The four label `if`s run sequentially with no early
exit, so the final `if score < 80` overwrites every earlier tier.) -/
theorem C3_label_bins_failing_input :
    (score_password ['a']).score = 10 ∧ (score_password ['a']).label = "Strong" := by
  have hne : (['a'] : List Char) ≠ [] := by decide
  have hes : entropy_score ['a'] = 0 := entropy_score_singleton_lower 'a' (by decide)
  have hraw : raw_score ['a'] = 10 := by
    rw [raw_score, hes]
    have h1 : length_score (['a'] : List Char).length = 5 := by decide
    have h2 : variety_score ['a'] = 5 := by decide
    have h3 : penalties_total ['a'] = 0 := by decide
    rw [h1, h2, h3]
    norm_num
  have hfin : final_score ['a'] = 10 := by
    rw [final_score, hraw]
    decide
  unfold score_password
  rw [if_neg hne]
  refine ⟨hfin, ?_⟩
  rw [labelOf_eq, hfin]
  norm_num

/-- C10 at the witness password `"aB3!xY7?mK9$"` (length 12, all four
classes, no penalty check fires): the feedback list is empty and the score
is at most 77 = 32 + 20 + 25, below the 80 needed for the congratulatory
line. -/
theorem C10_empty_feedback_exists :
    (score_password "aB3!xY7?mK9$".toList).feedback = [] ∧
      (score_password "aB3!xY7?mK9$".toList).score ≤ 77 := by
  have hne : "aB3!xY7?mK9$".toList ≠ [] := by decide
  have hraw : raw_score "aB3!xY7?mK9$".toList ≤ 77 := by
    have h1 : length_score ("aB3!xY7?mK9$".toList).length = 32 := by decide
    have h2 : variety_score "aB3!xY7?mK9$".toList = 20 := by decide
    have h3 : penalties_total "aB3!xY7?mK9$".toList = 0 := by decide
    have h4 := entropy_score_le_25 "aB3!xY7?mK9$".toList
    rw [raw_score, h1, h2, h3]
    omega
  have hfin : final_score "aB3!xY7?mK9$".toList ≤ 77 :=
    max_le (by norm_num) ((min_le_right _ _).trans hraw)
  have hbase : base_feedback "aB3!xY7?mK9$".toList = [] := by decide
  unfold score_password
  rw [if_neg hne]
  refine ⟨?_, hfin⟩
  simp only [hbase]
  rw [if_neg]
  intro ⟨_, h80⟩
  omega

/-- Per the spec, the canonical checker computes sequence detection but its
result never subtracts points or appends feedback.  This variant makes the
sequence signal's weight explicit in the combination step: penalty
`seqPenalty` and feedback lines `seqFb` are applied when `has_sequence`
fires.  Weight 0 with no feedback lines recovers the shipped combination. -/
noncomputable def score_password_seq_weighted
    (seqPenalty : ℤ) (seqFb : List String) (pw : List Char) : StrengthResult :=
  if pw = [] then
    { score := 0, label := "Very Weak", entropy_bits := 0, feedback := ["Password is empty"] }
  else
    let penalties := penalties_total pw + (if has_sequence pw then seqPenalty else 0)
    let fb := length_fb pw.length ++ variety_fb pw ++
      (penalty_fb pw ++ (if has_sequence pw then seqFb else []))
    let score := max 0 (min 100
      (length_score pw.length + variety_score pw + entropy_score pw - penalties))
    { score := score, label := labelOf score, entropy_bits := entropy_combined pw,
      feedback := if fb = [] ∧ 80 ≤ score then fb ++ [congratsMsg] else fb }

/-- C5: `score_password` is independent of sequence detection — the result
equals the combination in which the sequence signal carries penalty 0 and no
feedback line, for every input.  No points are ever subtracted and no
feedback appended on account of `has_sequence`. -/
theorem C5_sequence_detection_has_no_effect (pw : List Char) :
    score_password_seq_weighted 0 [] pw = score_password pw := by
  by_cases hpw : pw = []
  · simp [score_password_seq_weighted, score_password, hpw]
  · simp only [score_password_seq_weighted, score_password, if_neg hpw]
    cases h : has_sequence pw <;>
      simp [h, raw_score, final_score, base_feedback]

/-! ### Repeated-run characterization (C6) -/

lemma replicate_four (c : Char) : List.replicate 4 c = [c, c, c, c] := rfl

lemma has_repeated_runs_iff (pw : List Char) :
    has_repeated_runs pw = true ↔
      ∃ c l r, c ≠ '\n' ∧ pw = l ++ List.replicate 4 c ++ r := by
  induction pw with
  | nil =>
    constructor
    · intro h
      simp [has_repeated_runs] at h
    · rintro ⟨c, l, r, _, h⟩
      simp [replicate_four] at h
  | cons a t ih =>
    rw [has_repeated_runs, Bool.or_eq_true, ih]
    constructor
    · rintro (h | ⟨c, l, r, hnl, rfl⟩)
      · match t, h with
        | c2 :: c3 :: c4 :: rest, h =>
          simp only [startsRun4, Bool.and_eq_true, beq_iff_eq, bne_iff_ne, ne_eq] at h
          obtain ⟨⟨⟨hnl, rfl⟩, rfl⟩, rfl⟩ := h
          exact ⟨a, [], rest, hnl, by simp [replicate_four]⟩
      · exact ⟨c, a :: l, r, hnl, rfl⟩
    · rintro ⟨c, l, r, hnl, hpw⟩
      cases l with
      | nil =>
        left
        rw [replicate_four] at hpw
        simp only [List.nil_append, List.cons_append, List.cons.injEq] at hpw
        obtain ⟨rfl, rfl⟩ := hpw
        simp [startsRun4, hnl]
      | cons x l' =>
        right
        simp only [List.cons_append, List.cons.injEq] at hpw
        exact ⟨c, l', r, hnl, hpw.2⟩

lemma mem_feedback_of_mem_base {pw : List Char} {m : String} (hne : pw ≠ [])
    (h : m ∈ base_feedback pw) : m ∈ (score_password pw).feedback := by
  unfold score_password
  rw [if_neg hne]
  simp only []
  split_ifs with hc
  · exact List.mem_append_left _ h
  · exact h

/-- C6 as stated is false of the program: `"\n\n\n\n"` is a single character
occurring four times consecutively, yet the detector returns false, because
the `.` of the regex `(.)\1{3,}` never matches a newline. -/
theorem C6_repeated_runs_counterexample :
    ¬(has_repeated_runs ['\n', '\n', '\n', '\n'] = true ↔
      ∃ c l r, ['\n', '\n', '\n', '\n'] = l ++ List.replicate 4 c ++ r) := by
  intro h
  have hfalse : has_repeated_runs ['\n', '\n', '\n', '\n'] = false := by decide
  have htrue := h.mpr ⟨'\n', [], [], by decide⟩
  rw [hfalse] at htrue
  exact Bool.false_ne_true htrue

/-- C6 (amended): `has_repeated_runs` holds exactly when some character
*other than a newline* occurs four or more times consecutively (the regex's
`.` does not match `'\n'`), `"aaaa1234"` flags while `"aaa1234b"` does not,
and a detected run contributes 8 penalty points and the repeated-characters
feedback line. -/
theorem C6_repeated_runs (pw : List Char) :
    (has_repeated_runs pw = true ↔
      ∃ c l r, c ≠ '\n' ∧ pw = l ++ List.replicate 4 c ++ r) ∧
    has_repeated_runs "aaaa1234".toList = true ∧
    has_repeated_runs "aaa1234b".toList = false ∧
    (has_repeated_runs pw = true →
      penalties_total pw = (if looks_like_common_password pw then 25 else 0) + 8 +
        (if has_keyboard_pattern pw then 6 else 0) ∧
      "Avoid repeated characters (e.g., aaaa, 1111)." ∈ (score_password pw).feedback) := by
  refine ⟨has_repeated_runs_iff pw, by decide, by decide, fun h => ⟨?_, ?_⟩⟩
  · simp [penalties_total, h]
  · have hne : pw ≠ [] := by
      rintro rfl
      simp [has_repeated_runs] at h
    refine mem_feedback_of_mem_base hne ?_
    simp [base_feedback, penalty_fb, h]

/-! ### Common-password characterization (C4) -/

lemma letter_not_digit {c : Char} (h : isLetterAZ c = true) : isDigit09 c = false := by
  simp only [isLetterAZ, isLowerAZ, isUpperAZ, Bool.or_eq_true, Bool.and_eq_true,
    decide_eq_true_eq] at h
  simp only [isDigit09, Bool.and_eq_false_iff, decide_eq_false_iff_not]
  omega

lemma digit_not_letter {c : Char} (h : isDigit09 c = true) : isLetterAZ c = false := by
  simp only [isDigit09, Bool.and_eq_true, decide_eq_true_eq] at h
  simp only [isLetterAZ, isLowerAZ, isUpperAZ, Bool.or_eq_false_iff, Bool.and_eq_false_iff,
    decide_eq_false_iff_not]
  omega

lemma takeWhile_append_cons {p : Char → Bool} {l1 : List Char} {d : Char} (ds : List Char)
    (h1 : l1.all p = true) (hd : p d = false) :
    (l1 ++ d :: ds).takeWhile p = l1 := by
  induction l1 with
  | nil => simp [List.takeWhile_cons, hd]
  | cons x t ih =>
    simp only [List.all_cons, Bool.and_eq_true] at h1
    simp [List.takeWhile_cons, h1.1, ih h1.2]

lemma dropWhile_append_cons {p : Char → Bool} {l1 : List Char} {d : Char} (ds : List Char)
    (h1 : l1.all p = true) (hd : p d = false) :
    (l1 ++ d :: ds).dropWhile p = d :: ds := by
  induction l1 with
  | nil => simp [List.dropWhile_cons, hd]
  | cons x t ih =>
    simp only [List.all_cons, Bool.and_eq_true] at h1
    simp [List.dropWhile_cons, h1.1, ih h1.2]

lemma dropWhile_append_all {p : Char → Bool} {l1 : List Char} (l2 : List Char)
    (h1 : l1.all p = true) :
    (l1 ++ l2).dropWhile p = l2.dropWhile p := by
  induction l1 with
  | nil => simp
  | cons x t ih =>
    simp only [List.all_cons, Bool.and_eq_true] at h1
    simp [List.dropWhile_cons, h1.1, ih h1.2]

lemma stripTrailingDigits_decomp {L D : List Char} (hL : L ≠ [])
    (hLall : L.all isLetterAZ = true) (hDall : D.all isDigit09 = true) :
    stripTrailingDigits (L ++ D) = L := by
  unfold stripTrailingDigits
  rw [List.reverse_append, dropWhile_append_all L.reverse (by rwa [List.all_reverse])]
  cases hrev : L.reverse with
  | nil => exact absurd (List.reverse_eq_nil_iff.mp hrev) hL
  | cons c t =>
    have hc : c ∈ L := List.mem_reverse.mp (hrev ▸ List.mem_cons_self c t)
    have hcL : isLetterAZ c = true := List.all_eq_true.mp hLall c hc
    rw [List.dropWhile_cons, if_neg (by rw [letter_not_digit hcL]; exact Bool.false_ne_true),
      ← hrev, List.reverse_reverse]

/-- The Prop-level reading of the regex `^[a-zA-Z]+[0-9]{1,4}$`. -/
def lettersThenDigitsProp (raw : List Char) : Prop :=
  ∃ letters digits, raw = letters ++ digits ∧ letters ≠ [] ∧
    letters.all isLetterAZ = true ∧ digits ≠ [] ∧
    digits.all isDigit09 = true ∧ digits.length ≤ 4

lemma matchesLettersThenDigits_iff (raw : List Char) :
    matchesLettersThenDigits raw = true ↔ lettersThenDigitsProp raw := by
  constructor
  · intro h
    simp only [matchesLettersThenDigits, Bool.and_eq_true, Bool.not_eq_eq_eq_not,
      Bool.not_true, List.isEmpty_eq_false, decide_eq_true_eq] at h
    obtain ⟨⟨⟨hL, hD⟩, hDall⟩, hlen⟩ := h
    refine ⟨raw.takeWhile isLetterAZ, raw.dropWhile isLetterAZ,
      (List.takeWhile_append_dropWhile _ _).symm, hL, ?_, hD, hDall, hlen⟩
    exact List.all_eq_true.mpr fun c hc => List.mem_takeWhile_imp hc
  · rintro ⟨L, D, rfl, hL, hLall, hD, hDall, hlen⟩
    cases D with
    | nil => exact absurd rfl hD
    | cons d ds =>
      have hdD : isDigit09 d = true := List.all_eq_true.mp hDall d (List.mem_cons_self d ds)
      have hdL : isLetterAZ d = false := digit_not_letter hdD
      have htake : (L ++ d :: ds).takeWhile isLetterAZ = L :=
        takeWhile_append_cons ds hLall hdL
      have hdrop : (L ++ d :: ds).dropWhile isLetterAZ = d :: ds :=
        dropWhile_append_cons ds hLall hdL
      simp only [matchesLettersThenDigits, htake, hdrop, Bool.and_eq_true,
        Bool.not_eq_eq_eq_not, Bool.not_true, List.isEmpty_eq_false, decide_eq_true_eq]
      exact ⟨⟨⟨hL, by simp⟩, hDall⟩, hlen⟩

lemma looks_eq_three_way (pw : List Char) :
    looks_like_common_password pw =
      (COMMON_PASSWORDS.contains ((pyStrip pw).map toLowerC) ||
        (matchesLettersThenDigits (pyStrip pw) &&
          COMMON_PASSWORDS.contains ((stripTrailingDigits (pyStrip pw)).map toLowerC)) ||
        COMMON_PASSWORDS.contains (((pyStrip pw).map toLowerC).map leetChar)) := by
  simp only [looks_like_common_password]
  cases hA : COMMON_PASSWORDS.contains ((pyStrip pw).map toLowerC) <;>
    cases hB : matchesLettersThenDigits (pyStrip pw) <;>
      cases hC : COMMON_PASSWORDS.contains
          ((stripTrailingDigits (pyStrip pw)).map toLowerC) <;>
        simp [hA, hB, hC]

/-- C4: the common-password detector fires exactly when one of the three
rules matches — (a) exact match after strip+lower, (b) letters followed by
one to four trailing digits whose letters-only prefix is common, (c) a
leetspeak normalization is common.  `"password"`, `"Password123"` and
`"p@ssw0rd"` all flag, and a firing match contributes 25 penalty points and
the common-password feedback line. -/
theorem C4_common_password (pw : List Char) :
    (looks_like_common_password pw = true ↔
      (COMMON_PASSWORDS.contains ((pyStrip pw).map toLowerC) = true ∨
        (∃ letters digits, pyStrip pw = letters ++ digits ∧ letters ≠ [] ∧
          letters.all isLetterAZ = true ∧ digits ≠ [] ∧
          digits.all isDigit09 = true ∧ digits.length ≤ 4 ∧
          COMMON_PASSWORDS.contains (letters.map toLowerC) = true) ∨
        COMMON_PASSWORDS.contains (((pyStrip pw).map toLowerC).map leetChar) = true)) ∧
    looks_like_common_password "password".toList = true ∧
    looks_like_common_password "Password123".toList = true ∧
    looks_like_common_password "p@ssw0rd".toList = true ∧
    (looks_like_common_password pw = true →
      penalties_total pw = 25 + (if has_repeated_runs pw then 8 else 0) +
        (if has_keyboard_pattern pw then 6 else 0) ∧
      "This looks like a common password or easy variation-avoid it." ∈
        (score_password pw).feedback) := by
  refine ⟨?_, by decide, by decide, by decide, fun h => ⟨?_, ?_⟩⟩
  · rw [looks_eq_three_way]
    simp only [Bool.or_eq_true, Bool.and_eq_true]
    constructor
    · rintro ((hA | ⟨hB, hC⟩) | hD)
      · exact Or.inl hA
      · obtain ⟨L, D, hdecomp, hL, hLall, hD', hDall, hlen⟩ :=
          (matchesLettersThenDigits_iff _).mp hB
        refine Or.inr (Or.inl ⟨L, D, hdecomp, hL, hLall, hD', hDall, hlen, ?_⟩)
        rwa [hdecomp, stripTrailingDigits_decomp hL hLall hDall] at hC
      · exact Or.inr (Or.inr hD)
    · rintro (hA | ⟨L, D, hdecomp, hL, hLall, hD', hDall, hlen, hC⟩ | hD)
      · exact Or.inl (Or.inl hA)
      · refine Or.inl (Or.inr ⟨?_, ?_⟩)
        · exact (matchesLettersThenDigits_iff _).mpr ⟨L, D, hdecomp, hL, hLall, hD', hDall, hlen⟩
        · rwa [hdecomp, stripTrailingDigits_decomp hL hLall hDall]
      · exact Or.inr hD
  · simp [penalties_total, h]
  · have hempty : looks_like_common_password [] = false := by decide
    have hne : pw ≠ [] := by
      intro hpw
      rw [hpw, hempty] at h
      exact Bool.false_ne_true h
    refine mem_feedback_of_mem_base hne ?_
    simp [base_feedback, penalty_fb, h]

/-! ### Entropy combination (C7) -/

/-- The spec's frequency-based Shannon estimate, written as in the spec:
`(−Σ p·log2(p))` over the distinct characters, times the length, with
`p = count / length`. -/
noncomputable def shannon_estimate_spec (pw : List Char) : ℝ :=
  -(∑ c ∈ pw.toFinset,
      ((pw.count c : ℝ) / pw.length) * Real.logb 2 ((pw.count c : ℝ) / pw.length)) *
    pw.length

/-- The spec's search-space estimate: `length × log2(alphabet_size)`, and 0
when no character classes are detected. -/
noncomputable def search_space_estimate_spec (pw : List Char) : ℝ :=
  if (detect_charsets pw).1 = 0 then 0
  else (pw.length : ℝ) * Real.logb 2 ((detect_charsets pw).1 : ℝ)

lemma search_space_eq_spec (pw : List Char) :
    estimated_search_space_entropy_bits pw = search_space_estimate_spec pw := rfl

lemma shannon_eq_spec (pw : List Char) (h : pw ≠ []) :
    shannon_entropy_bits pw = shannon_estimate_spec pw := by
  simp only [shannon_entropy_bits, shannon_estimate_spec, if_neg h]
  congr 1
  have h1 : pw.dedup.toFinset = pw.toFinset := by
    ext a
    simp [List.mem_dedup]
  rw [← List.sum_toFinset _ pw.nodup_dedup, h1, ← Finset.sum_neg_distrib]

/-- C7: for every non-empty password, the returned `entropy_bits` is the
minimum of the frequency-based Shannon estimate and the search-space
estimate, the latter being 0 when no character class is detected. -/
theorem C7_entropy_bits_is_conservative_min (pw : List Char) (h : pw ≠ []) :
    (score_password pw).entropy_bits =
      min (shannon_estimate_spec pw) (search_space_estimate_spec pw) ∧
    ((detect_charsets pw).1 = 0 → search_space_estimate_spec pw = 0) := by
  constructor
  · unfold score_password
    rw [if_neg h]
    simp only [entropy_combined, shannon_eq_spec pw h, search_space_eq_spec]
  · intro h0
    rw [search_space_estimate_spec, if_pos h0]

/-! ### Monotonicity of the entropy estimates under appending (C8) -/

lemma mul_log_slope_mono {a b : ℝ} (ha : 0 ≤ a) (hab : a + 1 ≤ b) :
    (a + 1) * Real.log (a + 1) - a * Real.log a ≤
      (b + 1) * Real.log (b + 1) - b * Real.log b := by
  have hf := Real.convexOn_mul_log
  have hb0 : (0 : ℝ) ≤ b := by linarith
  have h1 := hf.secant_mono (a := a + 1) (x := a) (y := b + 1)
    (Set.mem_Ici.mpr (by linarith)) (Set.mem_Ici.mpr ha) (Set.mem_Ici.mpr (by linarith))
    (by linarith) (by linarith) (by linarith)
  have h2 := hf.secant_mono (a := b + 1) (x := a + 1) (y := b)
    (Set.mem_Ici.mpr (by linarith)) (Set.mem_Ici.mpr (by linarith)) (Set.mem_Ici.mpr hb0)
    (by linarith) (by linarith) (by linarith)
  have e1 : a - (a + 1) = -1 := by ring
  have e2 : (b + 1) - (a + 1) = b - a := by ring
  have e3 : (a + 1) - (b + 1) = -(b - a) := by ring
  have e4 : b - (b + 1) = -1 := by ring
  rw [e1, e2, div_neg, div_one, neg_sub] at h1
  rw [e3, e4, div_neg, div_neg, div_one, neg_sub] at h2
  have key : -(((a + 1) * Real.log (a + 1) - (b + 1) * Real.log (b + 1)) / (b - a)) =
      ((b + 1) * Real.log (b + 1) - (a + 1) * Real.log (a + 1)) / (b - a) := by ring
  rw [key] at h2
  linarith

lemma mul_logb_slope_mono {a b : ℝ} (ha : 0 ≤ a) (hab : a + 1 ≤ b) :
    (a + 1) * Real.logb 2 (a + 1) - a * Real.logb 2 a ≤
      (b + 1) * Real.logb 2 (b + 1) - b * Real.logb 2 b := by
  have h := mul_log_slope_mono ha hab
  have hlog2 : 0 < Real.log 2 := Real.log_pos (by norm_num)
  simp only [Real.logb]
  rw [mul_div_assoc', mul_div_assoc', mul_div_assoc', mul_div_assoc',
    div_sub_div_same, div_sub_div_same]
  exact div_le_div_of_nonneg_right h hlog2.le

lemma mul_logb_self_mono {a b : ℝ} (ha : 1 ≤ a) (hab : a ≤ b) :
    a * Real.logb 2 a ≤ b * Real.logb 2 b :=
  mul_le_mul hab (Real.logb_le_logb_of_le (by norm_num) (by linarith) hab)
    (Real.logb_nonneg (by norm_num) ha) (by linarith)

/-- Closed form of the total Shannon estimate:
`L·log2 L − Σ count·log2 count` over the distinct characters. -/
lemma shannon_closed (pw : List Char) (h : pw ≠ []) :
    shannon_entropy_bits pw =
      (pw.length : ℝ) * Real.logb 2 (pw.length) -
        ∑ c ∈ pw.toFinset, (pw.count c : ℝ) * Real.logb 2 (pw.count c) := by
  rw [shannon_eq_spec pw h, shannon_estimate_spec]
  have hL : (0 : ℝ) < (pw.length : ℝ) := by
    exact_mod_cast List.length_pos.mpr h
  have hterm : ∀ c ∈ pw.toFinset,
      ((pw.count c : ℝ) / (pw.length : ℝ)) * Real.logb 2 ((pw.count c : ℝ) / (pw.length : ℝ)) =
        ((pw.count c : ℝ) * Real.logb 2 (pw.count c) -
          (pw.count c : ℝ) * Real.logb 2 (pw.length)) / (pw.length : ℝ) := by
    intro c hc
    have hcnt : (0 : ℝ) < (pw.count c : ℝ) := by
      exact_mod_cast List.count_pos_iff.mpr (List.mem_toFinset.mp hc)
    rw [Real.logb_div (ne_of_gt hcnt) (ne_of_gt hL)]
    field_simp
    ring
  have hsumB : ∑ c ∈ pw.toFinset, (pw.count c : ℝ) * Real.logb 2 (pw.length) =
      (pw.length : ℝ) * Real.logb 2 (pw.length) := by
    rw [← Finset.sum_mul]
    congr 1
    rw [← Nat.cast_sum]
    exact_mod_cast congrArg (fun n : ℕ => (n : ℝ)) (List.sum_toFinset_count_eq_length pw)
  rw [Finset.sum_congr rfl hterm, ← Finset.sum_div, Finset.sum_sub_distrib, hsumB]
  field_simp

lemma shannon_append_one (pw : List Char) (c : Char) :
    shannon_entropy_bits pw ≤ shannon_entropy_bits (pw ++ [c]) := by
  by_cases h : pw = []
  · subst h
    rw [List.nil_append]
    have h0 : shannon_entropy_bits [] = 0 := by simp [shannon_entropy_bits]
    rw [h0, shannon_singleton]
  · have hne' : pw ++ [c] ≠ [] := by simp
    rw [shannon_closed pw h, shannon_closed _ hne']
    have hL0 : 0 < pw.length := List.length_pos.mpr h
    have hL1 : (1 : ℝ) ≤ (pw.length : ℝ) := by exact_mod_cast hL0
    have hlen : ((pw ++ [c]).length : ℝ) = (pw.length : ℝ) + 1 := by
      push_cast [List.length_append]
      norm_num
    rw [hlen]
    by_cases hc : c ∈ pw
    · have hF : (pw ++ [c]).toFinset = pw.toFinset := by
        ext a
        simp only [List.mem_toFinset, List.mem_append, List.mem_singleton]
        constructor
        · rintro (ha | rfl)
          · exact ha
          · exact hc
        · exact Or.inl
      rw [hF]
      have hcF : c ∈ pw.toFinset := List.mem_toFinset.mpr hc
      rw [← Finset.sum_erase_add pw.toFinset
            (fun x => ((pw ++ [c]).count x : ℝ) * Real.logb 2 ((pw ++ [c]).count x)) hcF,
          ← Finset.sum_erase_add pw.toFinset
            (fun x => ((pw.count x : ℝ)) * Real.logb 2 (pw.count x)) hcF]
      have herase : ∑ x ∈ pw.toFinset.erase c,
          ((pw ++ [c]).count x : ℝ) * Real.logb 2 ((pw ++ [c]).count x) =
          ∑ x ∈ pw.toFinset.erase c, (pw.count x : ℝ) * Real.logb 2 (pw.count x) := by
        refine Finset.sum_congr rfl fun x hx => ?_
        have hxc : x ≠ c := Finset.ne_of_mem_erase hx
        simp [List.count_append, List.count_singleton', hxc]
      rw [herase]
      have hcnt : ((pw ++ [c]).count c : ℝ) = (pw.count c : ℝ) + 1 := by
        simp [List.count_append]
      rw [hcnt]
      have hk1 : (1 : ℝ) ≤ (pw.count c : ℝ) := by
        exact_mod_cast List.count_pos_iff.mpr hc
      have hkL : (pw.count c : ℝ) ≤ (pw.length : ℝ) := by
        exact_mod_cast List.count_le_length ..
      have hslope : ((pw.count c : ℝ) + 1) * Real.logb 2 ((pw.count c : ℝ) + 1) -
            (pw.count c : ℝ) * Real.logb 2 (pw.count c) ≤
          ((pw.length : ℝ) + 1) * Real.logb 2 ((pw.length : ℝ) + 1) -
            (pw.length : ℝ) * Real.logb 2 (pw.length) := by
        rcases eq_or_lt_of_le hkL with heq | hlt
        · rw [heq]
        · have hstep : (pw.count c : ℝ) + 1 ≤ (pw.length : ℝ) := by
            have hkn : pw.count c + 1 ≤ pw.length := by exact_mod_cast hlt
            exact_mod_cast hkn
          exact mul_logb_slope_mono (by linarith) hstep
      linarith
    · have hF : (pw ++ [c]).toFinset = insert c pw.toFinset := by
        ext a
        simp only [List.mem_toFinset, List.mem_append, List.mem_singleton, Finset.mem_insert]
        tauto
      have hcF : c ∉ pw.toFinset := fun hmem => hc (List.mem_toFinset.mp hmem)
      rw [hF, Finset.sum_insert hcF]
      have hcnt : ((pw ++ [c]).count c : ℝ) = 1 := by
        simp [List.count_append, List.count_eq_zero.mpr hc]
      rw [hcnt]
      have hrest : ∑ x ∈ pw.toFinset,
          ((pw ++ [c]).count x : ℝ) * Real.logb 2 ((pw ++ [c]).count x) =
          ∑ x ∈ pw.toFinset, (pw.count x : ℝ) * Real.logb 2 (pw.count x) := by
        refine Finset.sum_congr rfl fun x hx => ?_
        have hxc : x ≠ c := fun heq => hcF (heq ▸ hx)
        simp [List.count_append, List.count_singleton', hxc]
      rw [hrest]
      have hmono := mul_logb_self_mono hL1 (by linarith : (pw.length : ℝ) ≤ (pw.length : ℝ) + 1)
      simp only [Real.logb_one, mul_zero, one_mul]
      linarith

lemma shannon_append (pw ext : List Char) :
    shannon_entropy_bits pw ≤ shannon_entropy_bits (pw ++ ext) := by
  induction ext generalizing pw with
  | nil => simp
  | cons c rest ih =>
    have h1 := shannon_append_one pw c
    have h2 := ih (pw ++ [c])
    rw [List.append_assoc, List.singleton_append] at h2
    exact h1.trans h2

lemma ite_or_mono (b b' : Bool) (n : ℕ) :
    (if b = true then n else 0) ≤ (if (b || b') = true then n else 0) := by
  cases b <;> cases b' <;> simp

lemma charset_size_mono (pw ext : List Char) :
    (detect_charsets pw).1 ≤ (detect_charsets (pw ++ ext)).1 := by
  simp only [detect_charsets, List.any_append]
  exact add_le_add (add_le_add (add_le_add (ite_or_mono ..) (ite_or_mono ..))
    (ite_or_mono ..)) (ite_or_mono ..)

lemma ite_singleton_len_mono (b b' : Bool) (s : String) :
    (if b = true then [s] else []).length ≤ (if (b || b') = true then [s] else []).length := by
  cases b <;> cases b' <;> simp

lemma used_count_mono (pw ext : List Char) :
    (detect_charsets pw).2.length ≤ (detect_charsets (pw ++ ext)).2.length := by
  simp only [detect_charsets, List.any_append, List.length_append]
  exact add_le_add (add_le_add (add_le_add (ite_singleton_len_mono ..)
    (ite_singleton_len_mono ..)) (ite_singleton_len_mono ..)) (ite_singleton_len_mono ..)

lemma space_mono (pw ext : List Char) :
    estimated_search_space_entropy_bits pw ≤
      estimated_search_space_entropy_bits (pw ++ ext) := by
  by_cases h : (detect_charsets pw).1 = 0
  · calc estimated_search_space_entropy_bits pw = 0 := by
          simp only [estimated_search_space_entropy_bits]
          rw [if_pos h]
      _ ≤ estimated_search_space_entropy_bits (pw ++ ext) := search_space_nonneg _
  · have h0 : 0 < (detect_charsets pw).1 := Nat.pos_of_ne_zero h
    have hmono := charset_size_mono pw ext
    have h0' : (detect_charsets (pw ++ ext)).1 ≠ 0 := by omega
    simp only [estimated_search_space_entropy_bits]
    rw [if_neg h, if_neg h0']
    apply mul_le_mul
    · have : pw.length ≤ (pw ++ ext).length := by
        rw [List.length_append]
        omega
      exact_mod_cast this
    · exact Real.logb_le_logb_of_le (by norm_num) (by exact_mod_cast h0) (by exact_mod_cast hmono)
    · exact Real.logb_nonneg (by norm_num) (by exact_mod_cast h0)
    · positivity

lemma entropy_combined_mono (pw ext : List Char) :
    entropy_combined pw ≤ entropy_combined (pw ++ ext) :=
  le_min ((min_le_left _ _).trans (shannon_append pw ext))
    ((min_le_right _ _).trans (space_mono pw ext))

lemma entropy_score_mono (pw ext : List Char) :
    entropy_score pw ≤ entropy_score (pw ++ ext) := by
  unfold entropy_score
  apply pyInt_mono
  refine min_le_min le_rfl ?_
  have h := entropy_combined_mono pw ext
  norm_num
  linarith

lemma length_score_mono {n m : ℕ} (h : n ≤ m) : length_score n ≤ length_score m := by
  unfold length_score
  split_ifs <;> omega

lemma variety_score_mono (pw ext : List Char) :
    variety_score pw ≤ variety_score (pw ++ ext) := by
  unfold variety_score
  refine min_le_min le_rfl ?_
  have := used_count_mono pw ext
  have hcast : ((detect_charsets pw).2.length : ℤ) ≤ ((detect_charsets (pw ++ ext)).2.length : ℤ) := by
    exact_mod_cast this
  linarith

lemma score_password_score_nonneg (pw : List Char) : 0 ≤ (score_password pw).score := by
  unfold score_password
  split
  · norm_num
  · exact final_score_nonneg pw

/-- C8: appending characters that add a new character class, create no
repeated run and trigger no keyboard-pattern or common-password match in
either string never decreases the score. -/
theorem C8_append_monotone (pw ext : List Char)
    (hNew : (detect_charsets pw).2.length < (detect_charsets (pw ++ ext)).2.length)
    (hc1 : looks_like_common_password pw = false)
    (hc2 : looks_like_common_password (pw ++ ext) = false)
    (hr1 : has_repeated_runs pw = false)
    (hr2 : has_repeated_runs (pw ++ ext) = false)
    (hk1 : has_keyboard_pattern pw = false)
    (hk2 : has_keyboard_pattern (pw ++ ext) = false) :
    (score_password pw).score ≤ (score_password (pw ++ ext)).score := by
  have hp1 : penalties_total pw = 0 := by
    simp [penalties_total, hc1, hr1, hk1]
  have hp2 : penalties_total (pw ++ ext) = 0 := by
    simp [penalties_total, hc2, hr2, hk2]
  have hraw : raw_score pw ≤ raw_score (pw ++ ext) := by
    rw [raw_score, raw_score, hp1, hp2]
    have h1 : length_score pw.length ≤ length_score (pw ++ ext).length :=
      length_score_mono (by rw [List.length_append]; omega)
    have h2 := variety_score_mono pw ext
    have h3 := entropy_score_mono pw ext
    omega
  have hfin : final_score pw ≤ final_score (pw ++ ext) :=
    max_le_max le_rfl (min_le_min le_rfl hraw)
  by_cases h : pw = []
  · subst h
    have : (score_password ([] : List Char)).score = 0 := by
      unfold score_password
      simp
    rw [this]
    exact score_password_score_nonneg _
  · have hne2 : pw ++ ext ≠ [] := by
      simp [h]
    unfold score_password
    rw [if_neg h, if_neg hne2]
    exact hfin

/-! ### Concrete witnesses -/

/-- Witness for C4 at `"password"`: the match fires, 25 penalty points are
charged and the feedback line is present. -/
theorem C4_common_password_witness :
    looks_like_common_password "password".toList = true ∧
      penalties_total "password".toList =
        25 + (if has_repeated_runs "password".toList then 8 else 0) +
          (if has_keyboard_pattern "password".toList then 6 else 0) ∧
      "This looks like a common password or easy variation-avoid it." ∈
        (score_password "password".toList).feedback := by
  have h := (C4_common_password "password".toList).2.2.2.2 (by decide)
  exact ⟨by decide, h.1, h.2⟩

/-- Witness for C6 at `"aaaa1234"`: the run detector fires, 8 penalty points
are charged and the feedback line is present. -/
theorem C6_repeated_runs_witness :
    has_repeated_runs "aaaa1234".toList = true ∧
      penalties_total "aaaa1234".toList =
        (if looks_like_common_password "aaaa1234".toList then 25 else 0) + 8 +
          (if has_keyboard_pattern "aaaa1234".toList then 6 else 0) ∧
      "Avoid repeated characters (e.g., aaaa, 1111)." ∈
        (score_password "aaaa1234".toList).feedback := by
  have h := (C6_repeated_runs "aaaa1234".toList).2.2.2 (by decide)
  exact ⟨by decide, h.1, h.2⟩

/-- Witness for C7 at the non-empty password `"hello123"`. -/
theorem C7_entropy_bits_witness :
    "hello123".toList ≠ [] ∧
      (score_password "hello123".toList).entropy_bits =
        min (shannon_estimate_spec "hello123".toList)
          (search_space_estimate_spec "hello123".toList) :=
  ⟨by decide, (C7_entropy_bits_is_conservative_min "hello123".toList (by decide)).1⟩

/-- Witness for C8: appending the digit `'5'` (a new class) to `"bcdfgh"`
satisfies every hypothesis and does not decrease the score. -/
theorem C8_append_monotone_witness :
    (detect_charsets "bcdfgh".toList).2.length <
        (detect_charsets ("bcdfgh".toList ++ "5".toList)).2.length ∧
      (score_password "bcdfgh".toList).score ≤
        (score_password ("bcdfgh".toList ++ "5".toList)).score :=
  ⟨by decide, C8_append_monotone "bcdfgh".toList "5".toList (by decide) (by decide)
    (by decide) (by decide) (by decide) (by decide) (by decide)⟩

end PasswordStrength
